import Mathlib

/-!
Verification of the purple-ghost Twitch chat logger.

This file gives a shallow embedding of the program's core (channel-name
normalization from `config.rs`/`main.rs`, the `BTreeMap`-based tag map
`tags_to_map`, the `ron` map/struct serialization used for log records, the
event classifier/dispatcher of `main`, `FileHandleManager::write_to_log`,
and the SIGHUP reload diff) and proves the frozen claims about it.

Rust `String`s are modelled as Lean `String`s; byte-wise UTF-8 ordering of
`BTreeMap<String, _>` keys coincides with code-point-wise lexicographic
ordering, which is what `strLtB` implements.  Wall-clock timestamps
(`chrono::Local::now().to_rfc3339()`) are modelled as an opaque `now : String`
parameter threaded into the write operation.  A Rust `panic!` (including
`Option::unwrap` on `None`) is modelled as an explicit error value, since a
panic aborts the process before any further effect.
-/

set_option maxRecDepth 4000

namespace PurpleGhost

/-- Code point of a character, the value Rust compares when ordering the
bytes/chars of `String` keys. -/
def charNat (c : Char) : Nat := c.toNat

theorem charNat_inj {a b : Char} (h : charNat a = charNat b) : a = b := by
  have h2 := congrArg Char.ofNat h
  rwa [charNat, charNat, Char.ofNat_toNat, Char.ofNat_toNat] at h2

/-- Lexicographic strict order on character lists: the ordering of Rust
`String` keys inside a `BTreeMap`. -/
def strLtB : List Char → List Char → Bool
  | [], [] => false
  | [], _ :: _ => true
  | _ :: _, [] => false
  | a :: s, b :: t =>
    if charNat a < charNat b then true
    else if charNat b < charNat a then false
    else strLtB s t

theorem strLtB_cons (a b : Char) (s t : List Char) :
    strLtB (a :: s) (b :: t) = true ↔
      charNat a < charNat b ∨ (charNat a = charNat b ∧ strLtB s t = true) := by
  by_cases h1 : charNat a < charNat b
  · simp [strLtB, h1]
  · by_cases h2 : charNat b < charNat a
    · simp only [strLtB, if_neg h1, if_pos h2]
      constructor
      · intro h; exact absurd h (by simp)
      · intro h
        rcases h with h | ⟨he, _⟩
        · exact absurd h h1
        · omega
    · simp only [strLtB, if_neg h1, if_neg h2]
      constructor
      · intro h
        exact Or.inr ⟨by omega, h⟩
      · intro h
        rcases h with h | ⟨_, hs⟩
        · exact absurd h h1
        · exact hs

theorem strLtB_irrefl (s : List Char) : strLtB s s = false := by
  induction s with
  | nil => rfl
  | cons a s ih => simp [strLtB, ih]

theorem strLtB_asymm : ∀ s t : List Char, strLtB s t = true → strLtB t s = false := by
  intro s
  induction s with
  | nil =>
    intro t h
    cases t with
    | nil => simp [strLtB] at h
    | cons b bs => rfl
  | cons a s1 ih =>
    intro t h
    cases t with
    | nil => simp [strLtB] at h
    | cons b bs =>
      rw [strLtB_cons] at h
      cases hgoal : strLtB (b :: bs) (a :: s1) with
      | false => rfl
      | true =>
        rw [strLtB_cons] at hgoal
        rcases h with h | ⟨he, hs⟩ <;> rcases hgoal with hg | ⟨hge, hgs⟩
        · omega
        · omega
        · omega
        · rw [ih bs hs] at hgs
          exact Bool.noConfusion hgs

theorem strLtB_total_eq : ∀ s t : List Char, strLtB s t = false → strLtB t s = false → s = t := by
  intro s
  induction s with
  | nil =>
    intro t h1 _
    cases t with
    | nil => rfl
    | cons b bs => simp [strLtB] at h1
  | cons a s1 ih =>
    intro t h1 h2
    cases t with
    | nil => simp [strLtB] at h2
    | cons b bs =>
      have h1' : ¬ (charNat a < charNat b ∨ (charNat a = charNat b ∧ strLtB s1 bs = true)) := by
        rw [← strLtB_cons]
        simp [h1]
      have h2' : ¬ (charNat b < charNat a ∨ (charNat b = charNat a ∧ strLtB bs s1 = true)) := by
        rw [← strLtB_cons]
        simp [h2]
      push_neg at h1' h2'
      have hab : charNat a = charNat b := by omega
      have hs1 : strLtB s1 bs = false := by
        have := h1'.2 hab
        simp [this]
      have hs2 : strLtB bs s1 = false := by
        have := h2'.2 hab.symm
        simp [this]
      rw [charNat_inj hab, ih bs hs1 hs2]

theorem strLtB_trans :
    ∀ s t u : List Char, strLtB s t = true → strLtB t u = true → strLtB s u = true := by
  intro s
  induction s with
  | nil =>
    intro t u h1 h2
    cases t with
    | nil => simp [strLtB] at h1
    | cons b bs =>
      cases u with
      | nil => simp [strLtB] at h2
      | cons c cs => rfl
  | cons a s1 ih =>
    intro t u h1 h2
    cases t with
    | nil => simp [strLtB] at h1
    | cons b bs =>
      cases u with
      | nil => simp [strLtB] at h2
      | cons c cs =>
        rw [strLtB_cons] at h1 h2 ⊢
        rcases h1 with h1 | ⟨h1e, h1s⟩ <;> rcases h2 with h2 | ⟨h2e, h2s⟩
        · exact Or.inl (by omega)
        · exact Or.inl (by omega)
        · exact Or.inl (by omega)
        · exact Or.inr ⟨by omega, ih bs cs h1s h2s⟩

/-- Strict key order on `String`, as `BTreeMap<String, String>` orders keys. -/
def keyLt (s t : String) : Bool := strLtB s.data t.data

theorem keyLt_irrefl (s : String) : keyLt s s = false := strLtB_irrefl s.data

theorem keyLt_asymm {s t : String} (h : keyLt s t = true) : keyLt t s = false :=
  strLtB_asymm s.data t.data h

theorem keyLt_total_eq {s t : String} (h1 : keyLt s t = false) (h2 : keyLt t s = false) :
    s = t :=
  String.ext (strLtB_total_eq s.data t.data h1 h2)

theorem keyLt_trans {s t u : String} (h1 : keyLt s t = true) (h2 : keyLt t u = true) :
    keyLt s u = true :=
  strLtB_trans s.data t.data u.data h1 h2

theorem keyLt_ne {s t : String} (h : keyLt s t = true) : s ≠ t := by
  intro he
  rw [he, keyLt_irrefl] at h
  exact Bool.noConfusion h

/-- One IRC tag as in the `irc` crate's `Tag(String, Option<String>)`. -/
abbrev Tag : Type := String × Option String

/-- Ordered insertion into the sorted association list that models
`BTreeMap<String, String>`; inserting an existing key replaces its value. -/
def insertTag (k v : String) : List (String × String) → List (String × String)
  | [] => [(k, v)]
  | (k2, v2) :: rest =>
    if keyLt k k2 then (k, v) :: (k2, v2) :: rest
    else if k = k2 then (k, v) :: rest
    else (k2, v2) :: insertTag k v rest

/-- `tags_to_map` from `handlers.rs`/`main.rs`: build a `BTreeMap` from the
optional tag list, a missing tag value becoming the empty string. -/
def tags_to_map (tags : Option (List Tag)) : List (String × String) :=
  (tags.getD []).foldl (fun m t => insertTag t.1 (t.2.getD "") m) []

/-- Key lookup in the association list modelling `BTreeMap::get`. -/
def lookupKey : List (String × String) → String → Option String
  | [], _ => none
  | (k, v) :: rest, q => if q = k then some v else lookupKey rest q

/-- Keys strictly increase along the list: the `BTreeMap` representation
invariant. -/
def sortedTags (m : List (String × String)) : Prop :=
  List.Pairwise (fun a b => keyLt a.1 b.1 = true) m

theorem lookupKey_insertTag (k v q : String) (m : List (String × String)) :
    lookupKey (insertTag k v m) q = if q = k then some v else lookupKey m q := by
  induction m with
  | nil => simp [insertTag, lookupKey]
  | cons kv rest ih =>
    obtain ⟨k2, v2⟩ := kv
    by_cases h1 : keyLt k k2 = true
    · simp [insertTag, h1, lookupKey]
    · by_cases h2 : k = k2
      · subst h2
        by_cases hq : q = k <;> simp [insertTag, h1, hq, lookupKey]
      · by_cases hq : q = k2
        · subst hq
          simp [insertTag, h1, h2, lookupKey, Ne.symm h2]
        · simp [insertTag, h1, h2, lookupKey, hq, ih]

theorem mem_insertTag (k v : String) :
    ∀ (m : List (String × String)) (x : String × String),
      x ∈ insertTag k v m → x = (k, v) ∨ x ∈ m := by
  intro m
  induction m with
  | nil => intro x h; simpa [insertTag] using h
  | cons kv rest ih =>
    obtain ⟨k2, v2⟩ := kv
    intro x h
    by_cases h1 : keyLt k k2 = true
    · simp only [insertTag, if_pos h1, List.mem_cons] at h
      rcases h with h | h
      · exact Or.inl h
      · exact Or.inr (List.mem_cons.mpr h)
    · by_cases h2 : k = k2
      · simp only [insertTag, if_neg h1, if_pos h2, List.mem_cons] at h
        rcases h with h | h
        · exact Or.inl h
        · exact Or.inr (List.mem_cons_of_mem _ h)
      · simp only [insertTag, if_neg h1, if_neg h2, List.mem_cons] at h
        rcases h with h | h
        · exact Or.inr (by simp [h])
        · rcases ih x h with h3 | h3
          · exact Or.inl h3
          · exact Or.inr (List.mem_cons_of_mem _ h3)

theorem sortedTags_insertTag {m : List (String × String)} (k v : String)
    (hm : sortedTags m) : sortedTags (insertTag k v m) := by
  induction m with
  | nil => simp [insertTag, sortedTags]
  | cons kv rest ih =>
    obtain ⟨k2, v2⟩ := kv
    rw [sortedTags, List.pairwise_cons] at hm
    obtain ⟨hhead, htail⟩ := hm
    by_cases h1 : keyLt k k2 = true
    · rw [sortedTags, insertTag, if_pos h1, List.pairwise_cons]
      constructor
      · intro b hb
        rcases List.mem_cons.mp hb with hb | hb
        · simpa [hb] using h1
        · exact keyLt_trans h1 (hhead b hb)
      · rw [List.pairwise_cons]
        exact ⟨hhead, htail⟩
    · by_cases h2 : k = k2
      · subst h2
        rw [sortedTags, insertTag, if_neg h1, if_pos rfl, List.pairwise_cons]
        exact ⟨hhead, htail⟩
      · have h3 : keyLt k2 k = true := by
          cases h4 : keyLt k2 k with
          | true => rfl
          | false =>
            have h5 : keyLt k k2 = false := by simpa using h1
            exact absurd (keyLt_total_eq h5 h4) h2
        rw [sortedTags, insertTag, if_neg h1, if_neg h2, List.pairwise_cons]
        constructor
        · intro b hb
          rcases mem_insertTag k v rest b hb with hb2 | hb2
          · simpa [hb2] using h3
          · exact hhead b hb2
        · exact ih htail

theorem sortedTags_foldl (l : List Tag) :
    ∀ acc, sortedTags acc →
      sortedTags (l.foldl (fun m t => insertTag t.1 (t.2.getD "") m) acc) := by
  induction l with
  | nil => intro acc h; exact h
  | cons t ts ih =>
    intro acc h
    exact ih _ (sortedTags_insertTag _ _ h)

theorem sortedTags_tags_to_map (tags : Option (List Tag)) :
    sortedTags (tags_to_map tags) :=
  sortedTags_foldl _ [] (by simp [sortedTags])

theorem lookupKey_eq_none {m : List (String × String)} {q : String}
    (h : ∀ x ∈ m, x.1 ≠ q) : lookupKey m q = none := by
  induction m with
  | nil => rfl
  | cons kv rest ih =>
    obtain ⟨k, v⟩ := kv
    have hk : k ≠ q := h (k, v) (by simp)
    rw [lookupKey, if_neg (Ne.symm hk)]
    exact ih (fun x hx => h x (List.mem_cons_of_mem _ hx))

theorem lookupKey_tail_none {k : String} {kv : String × String}
    {m : List (String × String)} (hs : sortedTags (kv :: m)) (hq : keyLt k kv.1 = true ∨ k = kv.1) :
    lookupKey m k = none := by
  rw [sortedTags, List.pairwise_cons] at hs
  refine lookupKey_eq_none (fun x hx => ?_)
  have hlt : keyLt kv.1 x.1 = true := hs.1 x hx
  intro he
  rcases hq with hq | hq
  · rw [← he] at hq
    rw [keyLt_asymm hlt] at hq
    exact Bool.noConfusion hq
  · rw [he, hq] at hlt
    rw [keyLt_irrefl] at hlt
    exact Bool.noConfusion hlt

theorem sortedTags_eq_of_lookup :
    ∀ m1 m2 : List (String × String), sortedTags m1 → sortedTags m2 →
      (∀ q, lookupKey m1 q = lookupKey m2 q) → m1 = m2 := by
  intro m1
  induction m1 with
  | nil =>
    intro m2 _ _ hl
    cases m2 with
    | nil => rfl
    | cons kv rest =>
      have := hl kv.1
      simp [lookupKey] at this
  | cons kv1 r1 ih =>
    intro m2 h1 h2 hl
    obtain ⟨k1, v1⟩ := kv1
    cases m2 with
    | nil =>
      have := hl k1
      simp [lookupKey] at this
    | cons kv2 r2 =>
      obtain ⟨k2, v2⟩ := kv2
      have hkeys : k1 = k2 := by
        by_cases hc1 : keyLt k1 k2 = true
        · exfalso
          have hn : lookupKey ((k2, v2) :: r2) k1 = none := by
            rw [lookupKey, if_neg (keyLt_ne hc1)]
            exact lookupKey_tail_none h2 (Or.inl hc1)
          have := hl k1
          rw [hn, lookupKey, if_pos rfl] at this
          exact Option.noConfusion this
        · by_cases hc2 : keyLt k2 k1 = true
          · exfalso
            have hn : lookupKey ((k1, v1) :: r1) k2 = none := by
              rw [lookupKey, if_neg (keyLt_ne hc2)]
              exact lookupKey_tail_none h1 (Or.inl hc2)
            have := hl k2
            rw [hn, lookupKey, if_pos rfl] at this
            exact Option.noConfusion this
          · exact keyLt_total_eq (by simpa using hc1) (by simpa using hc2)
      subst hkeys
      have hv : v1 = v2 := by
        have := hl k1
        rw [lookupKey, if_pos rfl, lookupKey, if_pos rfl] at this
        exact Option.some.inj this
      subst hv
      have htails : ∀ q, lookupKey r1 q = lookupKey r2 q := by
        intro q
        by_cases hq : q = k1
        · subst hq
          rw [lookupKey_tail_none h1 (Or.inr rfl), lookupKey_tail_none h2 (Or.inr rfl)]
        · have := hl q
          rwa [lookupKey, if_neg hq, lookupKey, if_neg hq] at this
      rw [ih r2 (List.Pairwise.of_cons h1) (List.Pairwise.of_cons h2) htails]

theorem lookupKey_foldl (l : List Tag) (q : String) :
    ∀ acc, lookupKey (l.foldl (fun m t => insertTag t.1 (t.2.getD "") m) acc) q =
      match l.reverse.find? (fun t => t.1 == q) with
      | some t => some (t.2.getD "")
      | none => lookupKey acc q := by
  induction l with
  | nil => intro acc; simp
  | cons t ts ih =>
    intro acc
    simp only [List.foldl_cons, List.reverse_cons]
    rw [ih, List.find?_append]
    cases hfind : ts.reverse.find? (fun t => t.1 == q) with
    | some t2 => simp [Option.or]
    | none =>
      simp only [Option.or, lookupKey_insertTag]
      by_cases hq : t.1 = q
      · simp [List.find?, hq]
      · have hb : (t.1 == q) = false := by simpa using hq
        simp [List.find?, hb, Ne.symm hq]

/-- The value stored for `q` is the value of the last tag with that key. -/
theorem lookupKey_tags_to_map (l : List Tag) (q : String) :
    lookupKey (tags_to_map (some l)) q =
      (l.reverse.find? (fun t => t.1 == q)).map (fun t => t.2.getD "") := by
  rw [tags_to_map, Option.getD_some, lookupKey_foldl]
  cases hfind : l.reverse.find? (fun t => t.1 == q) with
  | some t2 => rfl
  | none => rfl

/-- The double-quote character. -/
def dquote : Char := Char.ofNat 34

/-- The backslash character. -/
def bslash : Char := Char.ofNat 92

/-- The opening curly brace. -/
def lbrace : Char := Char.ofNat 123

/-- The closing curly brace. -/
def rbrace : Char := Char.ofNat 125

/-- Model of the `ron` string escaper: quotes and backslashes are
backslash-escaped, every other character is emitted unchanged. -/
def ronEscape : List Char → List Char
  | [] => []
  | c :: cs =>
    if c = dquote ∨ c = bslash then bslash :: c :: ronEscape cs
    else c :: ronEscape cs

/-- A `ron` string literal: escaped content surrounded by double quotes. -/
def ronStrL (s : List Char) : List Char := dquote :: (ronEscape s ++ [dquote])

/-- `ron::to_string` applied to a Rust `String`. -/
def ronStr (s : String) : String := String.mk (ronStrL s.data)

/-- Serialize the entries of a map in list order, as `ron::to_string` renders
a `BTreeMap<String, String>` after the opening brace: entries
`"key":"value"` separated by commas, closed by the final brace. -/
def serEntriesL : List (List Char × List Char) → List Char
  | [] => [rbrace]
  | (k, v) :: rest =>
    ronStrL k ++ ':' :: (ronStrL v ++
      (match rest with
        | [] => [rbrace]
        | _ :: _ => ',' :: serEntriesL rest))

/-- `ron::to_string` for a string map: an opening brace followed by the
serialized entries. -/
def serMapL (m : List (List Char × List Char)) : List Char := lbrace :: serEntriesL m

/-- `ron::to_string` of the `BTreeMap<String, String>` produced by
`tags_to_map`, on Lean `String`s. -/
def serTagMap (m : List (String × String)) : String :=
  String.mk (serMapL (m.map (fun t => (t.1.data, t.2.data))))

/-- Model of the `ron` parser for a string literal body (after the opening
quote): returns the unescaped content and the input following the closing
quote. -/
def parseRonStr : List Char → Option (List Char × List Char)
  | [] => none
  | c :: cs =>
    if c = dquote then some ([], cs)
    else if c = bslash then
      match cs with
      | [] => none
      | c2 :: cs2 => (parseRonStr cs2).map (fun p => (c2 :: p.1, p.2))
    else (parseRonStr cs).map (fun p => (c :: p.1, p.2))

/-- Model of the `ron` parser for map entries after the opening brace,
with recursion fuel; consumes the whole remaining input. -/
def parseEntriesL : Nat → List Char → Option (List (List Char × List Char))
  | fuel, l =>
    match l with
    | [] => none
    | c :: cs =>
      if c = rbrace then (if cs = [] then some [] else none)
      else if c = dquote then
        match fuel with
        | 0 => none
        | fuel1 + 1 =>
          match parseRonStr cs with
          | none => none
          | some (k, r1) =>
            match r1 with
            | [] => none
            | c1 :: r1a =>
              if c1 = ':' then
                match r1a with
                | [] => none
                | c2 :: r2 =>
                  if c2 = dquote then
                    match parseRonStr r2 with
                    | none => none
                    | some (v, r3) =>
                      match r3 with
                      | [] => none
                      | c3 :: r4 =>
                        if c3 = rbrace then (if r4 = [] then some [(k, v)] else none)
                        else if c3 = ',' then
                          (parseEntriesL fuel1 r4).map (fun m => (k, v) :: m)
                        else none
                  else none
              else none
      else none

/-- Model of `ron::from_str` for a string map. -/
def parseMapL : List Char → Option (List (List Char × List Char))
  | [] => none
  | c :: cs => if c = lbrace then parseEntriesL cs.length cs else none

/-- `ron::from_str` for a string map, on Lean `String`s. -/
def parseMapS (s : String) : Option (List (String × String)) :=
  (parseMapL s.data).map (List.map (fun t => (String.mk t.1, String.mk t.2)))

theorem parseRonStr_cons (c : Char) (cs : List Char) :
    parseRonStr (c :: cs) =
      if c = dquote then some ([], cs)
      else if c = bslash then
        match cs with
        | [] => none
        | c2 :: cs2 => (parseRonStr cs2).map (fun p => (c2 :: p.1, p.2))
      else (parseRonStr cs).map (fun p => (c :: p.1, p.2)) := by
  rw [parseRonStr.eq_def]

theorem parseRonStr_escape (s : List Char) :
    ∀ rest, parseRonStr (ronEscape s ++ dquote :: rest) = some (s, rest) := by
  induction s with
  | nil =>
    intro rest
    rw [ronEscape, List.nil_append, parseRonStr_cons, if_pos rfl]
  | cons c cs ih =>
    intro rest
    by_cases hc : c = dquote ∨ c = bslash
    · have hbq : ¬ (bslash = dquote) := by decide
      rw [ronEscape, if_pos hc, List.cons_append, List.cons_append, parseRonStr_cons,
        if_neg hbq, if_pos rfl]
      show Option.map (fun p => (c :: p.1, p.2))
        (parseRonStr (ronEscape cs ++ dquote :: rest)) = some (c :: cs, rest)
      rw [ih rest]
      rfl
    · push_neg at hc
      rw [ronEscape, if_neg (by tauto), List.cons_append, parseRonStr_cons,
        if_neg hc.1, if_neg hc.2, ih rest]
      rfl

theorem serEntriesL_length (m : List (List Char × List Char)) :
    m.length ≤ (serEntriesL m).length := by
  induction m with
  | nil => simp [serEntriesL]
  | cons kv rest ih =>
    obtain ⟨k, v⟩ := kv
    cases rest with
    | nil => simp [serEntriesL, ronStrL]
    | cons kv2 rest2 =>
      simp only [serEntriesL, ronStrL, List.length_append, List.length_cons] at ih ⊢
      omega

theorem parseEntriesL_cons (fuel : Nat) (c : Char) (cs : List Char) :
    parseEntriesL fuel (c :: cs) =
      if c = rbrace then (if cs = [] then some [] else none)
      else if c = dquote then
        match fuel with
        | 0 => none
        | fuel1 + 1 =>
          match parseRonStr cs with
          | none => none
          | some (k, r1) =>
            match r1 with
            | [] => none
            | c1 :: r1a =>
              if c1 = ':' then
                match r1a with
                | [] => none
                | c2 :: r2 =>
                  if c2 = dquote then
                    match parseRonStr r2 with
                    | none => none
                    | some (v, r3) =>
                      match r3 with
                      | [] => none
                      | c3 :: r4 =>
                        if c3 = rbrace then (if r4 = [] then some [(k, v)] else none)
                        else if c3 = ',' then
                          (parseEntriesL fuel1 r4).map (fun m => (k, v) :: m)
                        else none
                  else none
              else none
      else none := by
  rw [parseEntriesL.eq_def]

theorem parseEntriesL_ser (m : List (List Char × List Char)) :
    ∀ fuel, m.length ≤ fuel → parseEntriesL fuel (serEntriesL m) = some m := by
  induction m with
  | nil =>
    intro fuel _
    rw [serEntriesL, parseEntriesL_cons, if_pos rfl, if_pos rfl]
  | cons kv rest ih =>
    intro fuel hf
    obtain ⟨k, v⟩ := kv
    cases fuel with
    | zero => simp at hf
    | succ fuel1 =>
      have hqr : ¬ (dquote = rbrace) := by decide
      have hcomr : ¬ ((',' : Char) = rbrace) := by decide
      cases rest with
      | nil =>
        have hser : serEntriesL [(k, v)] =
            dquote :: (ronEscape k ++ dquote ::
              (':' :: (dquote :: (ronEscape v ++ dquote :: [rbrace])))) := by
          simp [serEntriesL, ronStrL, List.append_assoc]
        rw [hser, parseEntriesL_cons, if_neg hqr, if_pos rfl]
        rw [parseRonStr_escape]
        simp only [if_pos rfl]
        rw [parseRonStr_escape]
        simp only [if_pos rfl]
        rfl
      | cons kv2 rest2 =>
        have hser : serEntriesL ((k, v) :: kv2 :: rest2) =
            dquote :: (ronEscape k ++ dquote ::
              (':' :: (dquote :: (ronEscape v ++ dquote ::
                (',' :: serEntriesL (kv2 :: rest2)))))) := by
          simp [serEntriesL, ronStrL, List.append_assoc]
        rw [hser, parseEntriesL_cons, if_neg hqr, if_pos rfl]
        rw [parseRonStr_escape]
        simp only [if_pos rfl]
        rw [parseRonStr_escape]
        simp only [if_neg hcomr, if_pos rfl]
        rw [ih fuel1 (by simpa using Nat.le_of_succ_le_succ hf)]
        rfl

theorem parseMapL_serMapL (m : List (List Char × List Char)) :
    parseMapL (serMapL m) = some m := by
  rw [serMapL, parseMapL, if_pos rfl]
  exact parseEntriesL_ser m _ (serEntriesL_length m)

/-- Serialize-then-parse round trip for the tag map encoding. -/
theorem map_mk_data (m : List (String × String)) :
    List.map ((fun t : List Char × List Char => (String.mk t.1, String.mk t.2)) ∘
      (fun t : String × String => (t.1.data, t.2.data))) m = m := by
  induction m with
  | nil => rfl
  | cons t ts ih =>
    rw [List.map_cons, ih]
    exact rfl

theorem parseMapS_serTagMap (m : List (String × String)) :
    parseMapS (serTagMap m) = some m := by
  rw [parseMapS, serTagMap]
  have hdata : (String.mk (serMapL (m.map (fun t => (t.1.data, t.2.data))))).data =
      serMapL (m.map (fun t => (t.1.data, t.2.data))) := rfl
  rw [hdata, parseMapL_serMapL]
  show some (List.map _ (List.map _ m)) = some m
  rw [List.map_map, map_mk_data]

/-- Rust `ch.is_ascii_alphanumeric() || ch == '_'` from `load_config`. -/
def validChannelChar (c : Char) : Bool :=
  decide ((48 ≤ charNat c ∧ charNat c ≤ 57) ∨ (65 ≤ charNat c ∧ charNat c ≤ 90) ∨
    (97 ≤ charNat c ∧ charNat c ≤ 122) ∨ charNat c = 95)

/-- Rust `char::to_ascii_lowercase`: ASCII uppercase letters are shifted by
32, every other character is unchanged. -/
def asciiLowerChar (c : Char) : Char :=
  if 65 ≤ charNat c ∧ charNat c ≤ 90 then Char.ofNat (charNat c + 32) else c

/-- Rust `str::to_ascii_lowercase` on a whole string. -/
def asciiLowerStr (s : String) : String := String.mk (s.data.map asciiLowerChar)

/-- Per-channel normalization from `load_config`: if every character is ASCII
alphanumeric or underscore the name becomes `#` + lowercase, otherwise the
code panics (`Invalid channel name`), modelled as `none`. -/
def normalizeChannel (c : String) : Option String :=
  if c.data.all validChannelChar then some ("#" ++ asciiLowerStr c) else none

/-- The channel list produced by `load_config`, propagating the first
panic as an error. -/
def loadChannels : List String → Except String (List String)
  | [] => Except.ok []
  | c :: rest =>
    match normalizeChannel c with
    | none => Except.error ("Invalid channel name: " ++ c)
    | some n =>
      match loadChannels rest with
      | Except.ok l => Except.ok (n :: l)
      | Except.error e => Except.error e

/-- The spec's channel-name pattern `[A-Za-z0-9_]+` (one or more valid
characters). -/
def matchesAlnumPlus (s : String) : Bool :=
  !s.data.isEmpty && s.data.all validChannelChar

/-- The two configuration fields read from `config.ron`. -/
structure GhostConfig where
  channels : List String
  log_path : String

/-- Filesystem effects of `load_config`/`open_log_files`: which directory is
created and which files are opened. -/
structure LoadEffects where
  dirsCreated : List String
  filesOpened : List String
deriving DecidableEq

/-- The fixed per-channel log file path `logs/<channel>.txt` hard-coded in
`open_log_files`. -/
def logFilePath (channel : String) : String := "logs/" ++ channel ++ ".txt"

/-- `load_config`, reduced to its observable filesystem effects: validate and
normalize the channels, create `log_path`, open one `logs/<channel>.txt` per
normalized channel. -/
def loadConfigEffects (cfg : GhostConfig) : Except String (List String × LoadEffects) :=
  match loadChannels cfg.channels with
  | Except.error e => Except.error e
  | Except.ok chans =>
    Except.ok (chans, ⟨[cfg.log_path], chans.map logFilePath⟩)

/-- The `FileHandleManager`: each open channel's log file, as the list of
lines written to it this session. -/
abbrev FHM : Type := List (String × List String)

/-- `HashMap::get` on the handle map. -/
def lookupFile : FHM → String → Option (List String)
  | [], _ => none
  | (ch, f) :: rest, q => if q = ch then some f else lookupFile rest q

/-- Append one written string to a channel's open file. -/
def appendToFile : FHM → String → String → FHM
  | [], _, _ => []
  | (ch, f) :: rest, q, e =>
    if q = ch then (ch, f ++ [e]) :: rest else (ch, f) :: appendToFile rest q e

/-- The decoded command of an IRC event, as `main` matches it: `PRIVMSG` is
its own variant in the `irc` crate, Twitch commands arrive as
`Command::Raw(name, params)`, and every other crate variant is `other`. -/
inductive Cmd where
  | privmsg (channel message : String)
  | raw (name : String) (params : List String)
  | other (descr : String)
deriving DecidableEq

/-- A decoded transport event: command, optional tag list, optional sender
prefix, and the nickname resolved from that prefix when there is one. -/
structure IrcMessage where
  cmd : Cmd
  tags : Option (List Tag)
  pfx : Option String
  srcNick : Option String
deriving DecidableEq

/-- What the event loop decides to do with one event. -/
inductive Action where
  | writeLog (channel line : String)
  | printDiag (cmd : Cmd) (pfx : Option String) (tagMap : List (String × String))
  | malformed (msg : String)
deriving DecidableEq

/-- The match on `message.command` in `main`: classification plus record
serialization.  `panic!`/`unwrap` failures are the `malformed` action. -/
def dispatch (m : IrcMessage) : Action :=
  match m.cmd with
  | Cmd.privmsg channel message =>
    Action.writeLog channel
      ("PRIVMSG(sender:" ++ ronStr (m.srcNick.getD "???") ++ ",message:" ++
        ronStr message ++ ",tags:" ++ serTagMap (tags_to_map m.tags) ++ ")")
  | Cmd.raw name params =>
    if name = "CLEARCHAT" then
      match params with
      | [channel] =>
        Action.writeLog channel ("CLEARCHAT(tags:" ++ serTagMap (tags_to_map m.tags) ++ ")")
      | [channel, user] =>
        Action.writeLog channel
          ("CLEARCHAT(user:\"" ++ user ++ "\",tags:" ++ serTagMap (tags_to_map m.tags) ++ ")")
      | _ =>
        Action.malformed
          ("unexpected number of params for CLEARCHAT: " ++ String.intercalate " " params)
    else if name = "CLEARMSG" then
      match params with
      | channel :: msgid :: _ =>
        Action.writeLog channel
          ("CLEARMSG(message:\"" ++ msgid ++ "\",tags:" ++ serTagMap (tags_to_map m.tags) ++ ")")
      | _ => Action.malformed "called Option::unwrap() on a None value"
    else if name = "ROOMSTATE" ∨ name = "USERNOTICE" then
      match params with
      | channel :: _ =>
        Action.writeLog channel (name ++ "(tags:" ++ serTagMap (tags_to_map m.tags) ++ ")")
      | [] => Action.malformed "called Option::unwrap() on a None value"
    else Action.printDiag m.cmd m.pfx (tags_to_map m.tags)
  | Cmd.other _ => Action.printDiag m.cmd m.pfx (tags_to_map m.tags)

/-- Observable outputs of one loop iteration other than file contents. -/
inductive Output where
  | missingHandle (channel text : String)
  | printed (cmd : Cmd) (pfx : Option String) (tagMap : List (String × String))
  | fatalError (msg : String)
deriving DecidableEq

/-- `FileHandleManager::write_to_log` with the current wall-clock string
`now`: append `line // now\n` when the channel has a handle, otherwise emit
the missing-handle diagnostic and write nothing. -/
def write_to_log (fhm : FHM) (channel line now : String) : FHM × List Output :=
  match lookupFile fhm channel with
  | some _ => (appendToFile fhm channel (line ++ " // " ++ now ++ "\n"), [])
  | none => (fhm, [Output.missingHandle channel line])

/-- One transport-event iteration of the loop body over the handle map. -/
def runStep (fhm : FHM) (m : IrcMessage) (now : String) : FHM × List Output :=
  match dispatch m with
  | Action.writeLog ch line => write_to_log fhm ch line now
  | Action.printDiag c p t => (fhm, [Output.printed c p t])
  | Action.malformed msg => (fhm, [Output.fatalError msg])

/-- The mutable state of `main`: the tracked channel list and the live
`FileHandleManager`. -/
structure LoopState where
  channels : List String
  handles : FHM
deriving DecidableEq

/-- One transport-event iteration over the full loop state. -/
def eventStep (s : LoopState) (m : IrcMessage) (now : String) : LoopState × List Output :=
  ((⟨s.channels, (runStep s.handles m now).1⟩ : LoopState), (runStep s.handles m now).2)

/-- An outbound transport directive; the channel list is transmitted
comma-joined (`send_part`/`send_join` of `removed.join(",")`). -/
inductive Directive where
  | part (channels : List String)
  | join (channels : List String)
deriving DecidableEq

/-- Payloads of the PART directives in a directive list. -/
def partsOf (ds : List Directive) : List (List String) :=
  ds.filterMap (fun d => match d with | Directive.part l => some l | _ => none)

/-- Payloads of the JOIN directives in a directive list. -/
def joinsOf (ds : List Directive) : List (List String) :=
  ds.filterMap (fun d => match d with | Directive.join l => some l | _ => none)

/-- The SIGHUP branch of `main`: diff the old channel list against the newly
loaded one, PART the removed channels, swap in the new handle manager, JOIN
the added channels, and track the new channel list. -/
def reloadStep (s : LoopState) (newChannels : List String) (newHandles : FHM) :
    LoopState × List Directive :=
  let removed := s.channels.filter (fun c => !(newChannels.contains c))
  let added := newChannels.filter (fun c => !(s.channels.contains c))
  ((⟨newChannels, newHandles⟩ : LoopState),
    (if removed.isEmpty then [] else [Directive.part removed]) ++
      (if added.isEmpty then [] else [Directive.join added]))

theorem lookupFile_appendToFile_self (fhm : FHM) (ch e : String) (f : List String)
    (h : lookupFile fhm ch = some f) :
    lookupFile (appendToFile fhm ch e) ch = some (f ++ [e]) := by
  induction fhm with
  | nil => simp [lookupFile] at h
  | cons kv rest ih =>
    obtain ⟨ch2, f2⟩ := kv
    by_cases hc : ch = ch2
    · subst hc
      rw [lookupFile, if_pos rfl] at h
      rw [appendToFile, if_pos rfl, lookupFile, if_pos rfl, Option.some.inj h]
    · rw [lookupFile, if_neg hc] at h
      rw [appendToFile, if_neg hc, lookupFile, if_neg hc]
      exact ih h

theorem lookupFile_appendToFile_other (fhm : FHM) (ch e ch2 : String)
    (h : ch2 ≠ ch) : lookupFile (appendToFile fhm ch e) ch2 = lookupFile fhm ch2 := by
  induction fhm with
  | nil => rfl
  | cons kv rest ih =>
    obtain ⟨ch3, f3⟩ := kv
    by_cases hc : ch = ch3
    · subst hc
      rw [appendToFile, if_pos rfl, lookupFile, if_neg h, lookupFile, if_neg h]
    · rw [appendToFile, if_neg hc, lookupFile, lookupFile]
      by_cases hc2 : ch2 = ch3
      · rw [if_pos hc2, if_pos hc2]
      · rw [if_neg hc2, if_neg hc2]
        exact ih

/-- A command is routed to a log record exactly when it is PRIVMSG or one of
the four handled raw Twitch commands. -/
def handledCmd : Cmd → Bool
  | Cmd.privmsg _ _ => true
  | Cmd.raw n _ =>
    n == "CLEARCHAT" || n == "CLEARMSG" || n == "ROOMSTATE" || n == "USERNOTICE"
  | Cmd.other _ => false

/-- C6: a write targeting a channel with no open handle emits a diagnostic
carrying the channel name and the would-have-been-logged text, appends no
bytes to any file, leaves the manager unchanged, and is not fatal. -/
theorem C6_missing_handle_write (fhm : FHM) (channel line now : String)
    (h : lookupFile fhm channel = none) :
    write_to_log fhm channel line now = (fhm, [Output.missingHandle channel line]) := by
  rw [write_to_log, h]

/-- Witness for C6 at a concrete empty handle set. -/
theorem C6_missing_handle_write_witness :
    write_to_log [] "#foo" "line" "t0" = ([], [Output.missingHandle "#foo" "line"]) :=
  C6_missing_handle_write [] "#foo" "line" "t0" rfl

/-- C10: the configured `log_path` is used only to create the log directory;
the per-channel log files are always opened at `logs/<channel>.txt`,
independently of `log_path`. -/
theorem C10_log_path_only_dir (chans : List String) (p1 p2 : String)
    (res : List String × LoadEffects) :
    ((loadConfigEffects ⟨chans, p1⟩).map (fun r => r.2.filesOpened) =
      (loadConfigEffects ⟨chans, p2⟩).map (fun r => r.2.filesOpened))
    ∧ (loadConfigEffects ⟨chans, p1⟩ = Except.ok res →
        res.2.filesOpened = res.1.map logFilePath ∧ res.2.dirsCreated = [p1] ∧
          loadChannels chans = Except.ok res.1) := by
  constructor
  · rw [loadConfigEffects, loadConfigEffects]
    cases loadChannels chans <;> rfl
  · intro h
    rw [loadConfigEffects] at h
    cases he : loadChannels chans with
    | error e =>
      rw [he] at h
      exact Except.noConfusion h
    | ok chans2 =>
      rw [he] at h
      have h2 := Except.ok.inj h
      subst h2
      exact ⟨rfl, rfl, rfl⟩

/-- Witness for C10 at a concrete configuration. -/
theorem C10_log_path_only_dir_witness :
    loadConfigEffects ⟨["Foo"], "mydir"⟩ =
      Except.ok (["#foo"], ⟨["mydir"], ["logs/#foo.txt"]⟩) ∧
    (["#foo"] : List String).map logFilePath = ["logs/#foo.txt"] := by
  have h := C10_log_path_only_dir ["Foo"] "mydir" "other"
    (["#foo"], ⟨["mydir"], ["logs/#foo.txt"]⟩)
  have h2 := h.2 rfl
  exact ⟨rfl, h2.1.symm⟩

theorem partsOf_dirs (r a : List String) :
    partsOf ((if r.isEmpty then [] else [Directive.part r]) ++
      (if a.isEmpty then [] else [Directive.join a])) =
      (if r.isEmpty then [] else [r]) := by
  by_cases hr : r.isEmpty = true <;> by_cases ha : a.isEmpty = true <;>
    simp [partsOf, hr, ha]

theorem joinsOf_dirs (r a : List String) :
    joinsOf ((if r.isEmpty then [] else [Directive.part r]) ++
      (if a.isEmpty then [] else [Directive.join a])) =
      (if a.isEmpty then [] else [a]) := by
  by_cases hr : r.isEmpty = true <;> by_cases ha : a.isEmpty = true <;>
    simp [joinsOf, hr, ha]

/-- C3: a reload with live channels `old` and newly loaded channels `new`
issues exactly one PART carrying precisely `old − new` (none when that set
is empty), exactly one JOIN carrying precisely `new − old` (none when
empty), tracks exactly `new` afterwards, and routes every subsequent write
through the newly created handle manager. -/
theorem C3_reload_diff (old : List String) (oldH : FHM) (newChans : List String) (newH : FHM) :
    (partsOf (reloadStep ⟨old, oldH⟩ newChans newH).2 =
        (if (old.filter (fun c => !(newChans.contains c))).isEmpty then []
          else [old.filter (fun c => !(newChans.contains c))]))
    ∧ (∀ c, c ∈ old.filter (fun c => !(newChans.contains c)) ↔ (c ∈ old ∧ c ∉ newChans))
    ∧ (joinsOf (reloadStep ⟨old, oldH⟩ newChans newH).2 =
        (if (newChans.filter (fun c => !(old.contains c))).isEmpty then []
          else [newChans.filter (fun c => !(old.contains c))]))
    ∧ (∀ c, c ∈ newChans.filter (fun c => !(old.contains c)) ↔ (c ∈ newChans ∧ c ∉ old))
    ∧ (reloadStep ⟨old, oldH⟩ newChans newH).1 = ⟨newChans, newH⟩
    ∧ (∀ m now, eventStep (reloadStep ⟨old, oldH⟩ newChans newH).1 m now =
        ((⟨newChans, (runStep newH m now).1⟩ : LoopState), (runStep newH m now).2)) := by
  refine ⟨?_, ?_, ?_, ?_, rfl, fun m now => rfl⟩
  · show partsOf
        ((if (old.filter (fun c => !(newChans.contains c))).isEmpty then []
          else [Directive.part (old.filter (fun c => !(newChans.contains c)))]) ++
        (if (newChans.filter (fun c => !(old.contains c))).isEmpty then []
          else [Directive.join (newChans.filter (fun c => !(old.contains c)))])) = _
    exact partsOf_dirs _ _
  · intro c
    simp [List.mem_filter, List.contains]
  · show joinsOf
        ((if (old.filter (fun c => !(newChans.contains c))).isEmpty then []
          else [Directive.part (old.filter (fun c => !(newChans.contains c)))]) ++
        (if (newChans.filter (fun c => !(old.contains c))).isEmpty then []
          else [Directive.join (newChans.filter (fun c => !(old.contains c)))])) = _
    exact joinsOf_dirs _ _
  · intro c
    simp [List.mem_filter, List.contains]

/-- C4: CLEARCHAT with one parameter logs `CLEARCHAT(tags:...)` to that
channel, with two parameters logs `CLEARCHAT(user:"...",tags:...)`, and with
any other parameter count classification fails (the `panic!`) and nothing is
written to any file. -/
theorem C4_clearchat (channel user : String) (tags : Option (List Tag))
    (pfx sn : Option String) (params : List String) (fhm : FHM) (now : String)
    (f : List String) :
    (dispatch ⟨Cmd.raw "CLEARCHAT" [channel], tags, pfx, sn⟩ =
      Action.writeLog channel ("CLEARCHAT(tags:" ++ serTagMap (tags_to_map tags) ++ ")"))
    ∧ (dispatch ⟨Cmd.raw "CLEARCHAT" [channel, user], tags, pfx, sn⟩ =
      Action.writeLog channel
        ("CLEARCHAT(user:\"" ++ user ++ "\",tags:" ++ serTagMap (tags_to_map tags) ++ ")"))
    ∧ (lookupFile fhm channel = some f →
        runStep fhm ⟨Cmd.raw "CLEARCHAT" [channel], tags, pfx, sn⟩ now =
          (appendToFile fhm channel
            ("CLEARCHAT(tags:" ++ serTagMap (tags_to_map tags) ++ ")" ++ " // " ++ now ++ "\n"),
            []))
    ∧ (params.length ≠ 1 → params.length ≠ 2 →
        runStep fhm ⟨Cmd.raw "CLEARCHAT" params, tags, pfx, sn⟩ now =
          (fhm, [Output.fatalError
            ("unexpected number of params for CLEARCHAT: " ++ String.intercalate " " params)])) := by
  refine ⟨rfl, rfl, ?_, ?_⟩
  · intro h
    have hr : runStep fhm ⟨Cmd.raw "CLEARCHAT" [channel], tags, pfx, sn⟩ now =
        write_to_log fhm channel
          ("CLEARCHAT(tags:" ++ serTagMap (tags_to_map tags) ++ ")") now := rfl
    rw [hr, write_to_log, h]
  · intro h1 h2
    cases params with
    | nil => rfl
    | cons a t =>
      cases t with
      | nil => simp at h1
      | cons b t2 =>
        cases t2 with
        | nil => simp at h2
        | cons c t3 => rfl

/-- Witness for C4 at a concrete malformed and a concrete one-parameter
event. -/
theorem C4_clearchat_witness :
    runStep [("#c", [])] ⟨Cmd.raw "CLEARCHAT" ["a", "b", "c"], none, none, none⟩ "t0" =
      ([("#c", [])], [Output.fatalError "unexpected number of params for CLEARCHAT: a b c"]) ∧
    runStep [("#c", [])] ⟨Cmd.raw "CLEARCHAT" ["#c"], none, none, none⟩ "t0" =
      ([("#c", ["CLEARCHAT(tags:\x7b\x7d) // t0\n"])], []) := by
  have h := C4_clearchat "#c" "bob" none none none ["a", "b", "c"] [("#c", [])] "t0" []
  constructor
  · exact h.2.2.2 (by decide) (by decide)
  · rw [h.2.2.1 (by decide)]
    decide

/-- C8: any event whose command is none of the five handled commands is only
rendered (command, sender prefix if present, tag map) to the diagnostic
output: no file is written and the loop state is unchanged. -/
theorem C8_print_only (s : LoopState) (cmd : Cmd) (tags : Option (List Tag))
    (pfx sn : Option String) (now : String) (h : handledCmd cmd = false) :
    eventStep s ⟨cmd, tags, pfx, sn⟩ now = (s, [Output.printed cmd pfx (tags_to_map tags)]) := by
  cases cmd with
  | privmsg ch msg => simp [handledCmd] at h
  | raw n params =>
    simp only [handledCmd, Bool.or_eq_false_iff, beq_eq_false_iff_ne] at h
    obtain ⟨⟨⟨h1, h2⟩, h3⟩, h4⟩ := h
    have hd : dispatch ⟨Cmd.raw n params, tags, pfx, sn⟩ =
        Action.printDiag (Cmd.raw n params) pfx (tags_to_map tags) := by
      show (if n = "CLEARCHAT" then _ else if n = "CLEARMSG" then _
        else if n = "ROOMSTATE" ∨ n = "USERNOTICE" then _
        else Action.printDiag (Cmd.raw n params) pfx (tags_to_map tags)) =
          Action.printDiag (Cmd.raw n params) pfx (tags_to_map tags)
      rw [if_neg h1, if_neg h2, if_neg (not_or.mpr ⟨h3, h4⟩)]
    have hr : runStep s.handles ⟨Cmd.raw n params, tags, pfx, sn⟩ now =
        (s.handles, [Output.printed (Cmd.raw n params) pfx (tags_to_map tags)]) := by
      rw [runStep, hd]
    rw [eventStep, hr]
  | other d => rfl

/-- Witness for C8 at a concrete PING event. -/
theorem C8_print_only_witness :
    eventStep ⟨["#a"], [("#a", [])]⟩ ⟨Cmd.raw "PING" [], none, none, none⟩ "t0" =
      (⟨["#a"], [("#a", [])]⟩, [Output.printed (Cmd.raw "PING" []) none []]) :=
  C8_print_only ⟨["#a"], [("#a", [])]⟩ (Cmd.raw "PING" []) none none none "t0" (by decide)

theorem loadChannels_ok_iff :
    ∀ (cs ns : List String), loadChannels cs = Except.ok ns ↔
      ((∀ x ∈ cs, x.data.all validChannelChar = true) ∧
        ns = cs.map (fun x => "#" ++ asciiLowerStr x)) := by
  intro cs
  induction cs with
  | nil =>
    intro ns
    constructor
    · intro h
      refine ⟨by simp, ?_⟩
      have h2 := Except.ok.inj h
      rw [← h2]
      rfl
    · rintro ⟨-, h⟩
      rw [h]
      rfl
  | cons a t ih =>
    intro ns
    constructor
    · intro h
      rw [loadChannels] at h
      by_cases hv : a.data.all validChannelChar = true
      · rw [normalizeChannel, if_pos hv] at h
        cases hl : loadChannels t with
        | error e =>
          rw [hl] at h
          exact Except.noConfusion h
        | ok l =>
          rw [hl] at h
          have hns := Except.ok.inj h
          obtain ⟨ht1, ht2⟩ := (ih l).mp hl
          constructor
          · intro x hx
            rcases List.mem_cons.mp hx with hx | hx
            · rw [hx]; exact hv
            · exact ht1 x hx
          · rw [← hns, ht2]
            rfl
      · rw [normalizeChannel, if_neg hv] at h
        exact Except.noConfusion h
    · rintro ⟨hall, hns⟩
      have hva := hall a (by simp)
      rw [loadChannels, normalizeChannel, if_pos hva,
        (ih (t.map (fun x => "#" ++ asciiLowerStr x))).mpr
          ⟨fun x hx => hall x (List.mem_cons_of_mem _ hx), rfl⟩, hns]
      rfl

/-- C1 (amended): every raw channel name made only of `[A-Za-z0-9_]`
characters (including the empty name) normalizes to `#` + ASCII lowercase,
any name containing some other character is rejected fatally, and the
monitored list is exactly the normalized forms of the configured names. -/
theorem C1_channel_normalization (c : String) (cs ns : List String) :
    (c.data.all validChannelChar = true →
      normalizeChannel c = some ("#" ++ asciiLowerStr c))
    ∧ (c.data.all validChannelChar = false → normalizeChannel c = none)
    ∧ (loadChannels cs = Except.ok ns →
        ((∀ x ∈ cs, x.data.all validChannelChar = true) ∧
          ns = cs.map (fun x => "#" ++ asciiLowerStr x)))
    ∧ ((∀ x ∈ cs, x.data.all validChannelChar = true) →
        loadChannels cs = Except.ok (cs.map (fun x => "#" ++ asciiLowerStr x))) := by
  refine ⟨?_, ?_, ?_, ?_⟩
  · intro h
    rw [normalizeChannel, if_pos h]
  · intro h
    rw [normalizeChannel, if_neg (by simp [h])]
  · exact (loadChannels_ok_iff cs ns).mp
  · intro h
    exact (loadChannels_ok_iff cs _).mpr ⟨h, rfl⟩

/-- Witness for C1 (amended) at concrete valid and invalid names. -/
theorem C1_channel_normalization_witness :
    normalizeChannel "Ab_1" = some "#ab_1" ∧ normalizeChannel "a!" = none ∧
    loadChannels ["Ab_1"] = Except.ok ["#ab_1"] := by
  have h := C1_channel_normalization "Ab_1" ["Ab_1"] ["#ab_1"]
  have h2 := C1_channel_normalization "a!" [] []
  refine ⟨?_, h2.2.1 (by decide), ?_⟩
  · rw [h.1 (by decide)]
    decide
  · rw [h.2.2.2 (by decide)]
    have h3 : (["Ab_1"] : List String).map (fun x => "#" ++ asciiLowerStr x) = ["#ab_1"] := by
      decide
    rw [h3]

/-- The claim's channel-name pattern `[A-Za-z0-9_]+` rejects the empty name,
but the code accepts it: `load_config` checks `chars().all(...)`, which is
vacuously true for `""`, and normalizes it to `"#"`. -/
theorem C1_counterexample :
    matchesAlnumPlus "" = false ∧ loadChannels [""] = Except.ok ["#"] := by
  exact ⟨rfl, rfl⟩

/-- Does the dispatcher classify this action as a malformed-event panic? -/
def isMalformedA : Action → Bool
  | Action.malformed _ => true
  | _ => false

/-- The claim says any CLEARMSG whose parameter count is not 2 fails
classification, but the code never checks the count: with three parameters
it silently writes a record built from the first two. -/
theorem C5_counterexample :
    dispatch ⟨Cmd.raw "CLEARMSG" ["#foo", "id1", "extra"], none, none, none⟩ =
      Action.writeLog "#foo" "CLEARMSG(message:\"id1\",tags:\x7b\x7d)" ∧
    isMalformedA (dispatch ⟨Cmd.raw "CLEARMSG" ["#foo", "id1", "extra"], none, none, none⟩) =
      false := by
  exact ⟨by decide, by decide⟩

/-- C5 (amended): CLEARMSG with fewer than two parameters fails
classification (the `unwrap` panic) and writes nothing; with two or more
parameters the record built from the first two parameters is written to the
first parameter's log, extra parameters ignored. -/
theorem C5_clearmsg (tags : Option (List Tag)) (pfx sn : Option String)
    (params : List String) (channel msgid : String) (rest : List String)
    (fhm : FHM) (now : String) (f : List String) :
    (params.length < 2 →
      runStep fhm ⟨Cmd.raw "CLEARMSG" params, tags, pfx, sn⟩ now =
        (fhm, [Output.fatalError "called Option::unwrap() on a None value"]))
    ∧ (dispatch ⟨Cmd.raw "CLEARMSG" (channel :: msgid :: rest), tags, pfx, sn⟩ =
        Action.writeLog channel
          ("CLEARMSG(message:\"" ++ msgid ++ "\",tags:" ++ serTagMap (tags_to_map tags) ++ ")"))
    ∧ (lookupFile fhm channel = some f →
        runStep fhm ⟨Cmd.raw "CLEARMSG" (channel :: msgid :: rest), tags, pfx, sn⟩ now =
          (appendToFile fhm channel
            ("CLEARMSG(message:\"" ++ msgid ++ "\",tags:" ++ serTagMap (tags_to_map tags) ++ ")" ++
              " // " ++ now ++ "\n"), [])) := by
  refine ⟨?_, rfl, ?_⟩
  · intro h
    cases params with
    | nil => rfl
    | cons a t =>
      cases t with
      | nil => rfl
      | cons b t2 => simp only [List.length_cons] at h; omega
  · intro h
    have hr : runStep fhm ⟨Cmd.raw "CLEARMSG" (channel :: msgid :: rest), tags, pfx, sn⟩ now =
        write_to_log fhm channel
          ("CLEARMSG(message:\"" ++ msgid ++ "\",tags:" ++ serTagMap (tags_to_map tags) ++ ")")
          now := rfl
    rw [hr, write_to_log, h]

/-- Witness for C5 (amended) at a concrete short and a concrete two-parameter
event. -/
theorem C5_clearmsg_witness :
    runStep [("#c", [])] ⟨Cmd.raw "CLEARMSG" ["#c"], none, none, none⟩ "t0" =
      ([("#c", [])], [Output.fatalError "called Option::unwrap() on a None value"]) ∧
    runStep [("#c", [])] ⟨Cmd.raw "CLEARMSG" ["#c", "id9"], none, none, none⟩ "t0" =
      ([("#c", ["CLEARMSG(message:\"id9\",tags:\x7b\x7d) // t0\n"])], []) := by
  have h := C5_clearmsg none none none ["#c"] "#c" "id9" [] [("#c", [])] "t0" []
  constructor
  · exact h.1 (by decide)
  · rw [h.2.2 (by decide)]
    decide

/-- C7: a PRIVMSG is logged as
`PRIVMSG(sender:"...",message:"...",tags:...)`, the sender being the
resolved nickname or `"???"`; for the concrete alice/hello/`{"id":"1"}`
event on `#foo`, exactly that line plus ` // ` and the timestamp is appended
to `#foo`'s file only, the timestamp coming from the writer, not the
serializer. -/
theorem C7_privmsg (fhm : FHM) (now : String) (f : List String) (sn : Option String)
    (tags : Option (List Tag)) (pfx : Option String) (channel message : String) :
    (dispatch ⟨Cmd.privmsg channel message, tags, pfx, sn⟩ =
      Action.writeLog channel
        ("PRIVMSG(sender:" ++ ronStr (sn.getD "???") ++ ",message:" ++ ronStr message ++
          ",tags:" ++ serTagMap (tags_to_map tags) ++ ")"))
    ∧ (lookupFile fhm "#foo" = some f →
        (runStep fhm ⟨Cmd.privmsg "#foo" "hello", some [("id", some "1")], pfx, some "alice"⟩
            now =
          (appendToFile fhm "#foo"
            ("PRIVMSG(sender:\"alice\",message:\"hello\",tags:\x7b\"id\":\"1\"\x7d)" ++
              " // " ++ now ++ "\n"), []))
        ∧ lookupFile (appendToFile fhm "#foo"
            ("PRIVMSG(sender:\"alice\",message:\"hello\",tags:\x7b\"id\":\"1\"\x7d)" ++
              " // " ++ now ++ "\n")) "#foo" =
            some (f ++ ["PRIVMSG(sender:\"alice\",message:\"hello\",tags:\x7b\"id\":\"1\"\x7d)" ++
              " // " ++ now ++ "\n"])
        ∧ (∀ ch2, ch2 ≠ "#foo" →
            lookupFile (appendToFile fhm "#foo"
              ("PRIVMSG(sender:\"alice\",message:\"hello\",tags:\x7b\"id\":\"1\"\x7d)" ++
                " // " ++ now ++ "\n")) ch2 = lookupFile fhm ch2)) := by
  constructor
  · rfl
  · intro h
    have hs : dispatch ⟨Cmd.privmsg "#foo" "hello", some [("id", some "1")], pfx, some "alice"⟩ =
        Action.writeLog "#foo"
          "PRIVMSG(sender:\"alice\",message:\"hello\",tags:\x7b\"id\":\"1\"\x7d)" := by
      have hstr : ("PRIVMSG(sender:" ++ ronStr ((some "alice").getD "???") ++ ",message:" ++
          ronStr "hello" ++ ",tags:" ++
          serTagMap (tags_to_map (some [("id", some "1")])) ++ ")") =
          "PRIVMSG(sender:\"alice\",message:\"hello\",tags:\x7b\"id\":\"1\"\x7d)" := by
        decide
      rw [show dispatch
          ⟨Cmd.privmsg "#foo" "hello", some [("id", some "1")], pfx, some "alice"⟩ =
          Action.writeLog "#foo"
            ("PRIVMSG(sender:" ++ ronStr ((some "alice").getD "???") ++ ",message:" ++
              ronStr "hello" ++ ",tags:" ++
              serTagMap (tags_to_map (some [("id", some "1")])) ++ ")") from rfl, hstr]
    have hr : runStep fhm
        ⟨Cmd.privmsg "#foo" "hello", some [("id", some "1")], pfx, some "alice"⟩ now =
        write_to_log fhm "#foo"
          "PRIVMSG(sender:\"alice\",message:\"hello\",tags:\x7b\"id\":\"1\"\x7d)" now := by
      rw [runStep, hs]
    refine ⟨?_, ?_, ?_⟩
    · rw [hr, write_to_log, h]
    · exact lookupFile_appendToFile_self fhm "#foo" _ f h
    · intro ch2 hch
      exact lookupFile_appendToFile_other fhm "#foo" _ ch2 hch

/-- Witness for C7 at a concrete handle set. -/
theorem C7_privmsg_witness :
    runStep [("#foo", ["old"])]
        ⟨Cmd.privmsg "#foo" "hello", some [("id", some "1")], none, some "alice"⟩ "t0" =
      ([("#foo", ["old",
        "PRIVMSG(sender:\"alice\",message:\"hello\",tags:\x7b\"id\":\"1\"\x7d) // t0\n"])],
        []) := by
  have h := C7_privmsg [("#foo", ["old"])] "t0" ["old"] none (some [("id", some "1")]) none
    "#foo" "hello"
  rw [(h.2 (by decide)).1]
  decide

theorem countP_le_one_of_sorted (m : List (String × String)) (q : String)
    (h : sortedTags m) : m.countP (fun t => t.1 == q) ≤ 1 := by
  induction m with
  | nil => simp
  | cons kv rest ih =>
    rw [sortedTags, List.pairwise_cons] at h
    by_cases hq : kv.1 = q
    · have hzero : rest.countP (fun t => t.1 == q) = 0 := by
        rw [List.countP_eq_zero]
        intro x hx
        simp only [beq_iff_eq]
        rw [← hq]
        exact Ne.symm (keyLt_ne (h.1 x hx))
      rw [List.countP_cons_of_pos _ _ (by simp [hq]), hzero]
    · rw [List.countP_cons_of_neg _ _ (by simp [hq])]
      exact ih h.2

theorem countP_pos_of_lookup (m : List (String × String)) (q v : String)
    (h : lookupKey m q = some v) : 1 ≤ m.countP (fun t => t.1 == q) := by
  induction m with
  | nil => simp [lookupKey] at h
  | cons kv rest ih =>
    obtain ⟨k2, v2⟩ := kv
    by_cases hq : q = k2
    · rw [List.countP_cons_of_pos _ _ (by simp [hq.symm])]
      omega
    · rw [lookupKey, if_neg hq] at h
      have := ih h
      rw [List.countP_cons]
      omega

/-- C9: when a tag list carries a key two or more times, the built map keeps
exactly one entry for that key, whose value is that of the last occurrence
in the list. -/
theorem C9_last_tag_wins (l : List Tag) (q : String)
    (h : 2 ≤ l.countP (fun t => t.1 == q)) :
    (tags_to_map (some l)).countP (fun t => t.1 == q) = 1
    ∧ lookupKey (tags_to_map (some l)) q =
      (l.reverse.find? (fun t => t.1 == q)).map (fun t => t.2.getD "") := by
  have hlook := lookupKey_tags_to_map l q
  have hsorted := sortedTags_tags_to_map (some l)
  have hex : ∃ x ∈ l, (fun t : Tag => t.1 == q) x = true := by
    have hpos : 0 < l.countP (fun t => t.1 == q) := by omega
    exact List.countP_pos_iff.mp hpos
  obtain ⟨x, hxl, hxp⟩ := hex
  have hfind : ∃ t, l.reverse.find? (fun t => t.1 == q) = some t := by
    cases hf : l.reverse.find? (fun t => t.1 == q) with
    | some t => exact ⟨t, rfl⟩
    | none =>
      rw [List.find?_eq_none] at hf
      exact absurd hxp (by simpa using hf x (List.mem_reverse.mpr hxl))
  obtain ⟨t, ht⟩ := hfind
  have hsome : lookupKey (tags_to_map (some l)) q = some (t.2.getD "") := by
    rw [hlook, ht]
    rfl
  have hle := countP_le_one_of_sorted _ q hsorted
  have hge := countP_pos_of_lookup _ q _ hsome
  exact ⟨by omega, hlook⟩

/-- Witness for C9 at a concrete duplicate-key tag list. -/
theorem C9_last_tag_wins_witness :
    (tags_to_map (some [(("a" : String), some "1"), ("a", some "2")])).countP
        (fun t => t.1 == "a") = 1
    ∧ lookupKey (tags_to_map (some [(("a" : String), some "1"), ("a", some "2")])) "a" =
        some "2" := by
  have h := C9_last_tag_wins [("a", some "1"), ("a", some "2")] "a" (by decide)
  refine ⟨h.1, ?_⟩
  rw [h.2]
  decide

theorem find?_reverse_unique (l : List Tag) (t : Tag)
    (hnd : (l.map Prod.fst).Nodup) (ht : t ∈ l) :
    l.reverse.find? (fun x => x.1 == t.1) = some t := by
  induction l with
  | nil => simp at ht
  | cons a rest ih =>
    rw [List.reverse_cons, List.find?_append]
    rw [List.map_cons, List.nodup_cons] at hnd
    rcases List.mem_cons.mp ht with h | h
    · subst h
      have hnone : rest.reverse.find? (fun x => x.1 == t.1) = none := by
        rw [List.find?_eq_none]
        intro x hx
        simp only [beq_iff_eq]
        intro he
        exact hnd.1 (he ▸ (List.mem_map_of_mem Prod.fst (List.mem_reverse.mp hx)))
      rw [hnone]
      simp [List.find?]
    · rw [ih hnd.2 h]
      rfl

theorem tags_to_map_perm (l1 l2 : List Tag) (hp : l1.Perm l2)
    (hnd : (l1.map Prod.fst).Nodup) : tags_to_map (some l1) = tags_to_map (some l2) := by
  have hnd2 : (l2.map Prod.fst).Nodup := (hp.map Prod.fst).nodup_iff.mp hnd
  apply sortedTags_eq_of_lookup _ _ (sortedTags_tags_to_map _) (sortedTags_tags_to_map _)
  intro q
  rw [lookupKey_tags_to_map, lookupKey_tags_to_map]
  cases hf : l1.reverse.find? (fun t => t.1 == q) with
  | some t =>
    have hm : t ∈ l1 := List.mem_reverse.mp (List.mem_of_find?_eq_some hf)
    have hq : t.1 = q := by simpa using List.find?_some hf
    have h2 : l2.reverse.find? (fun x => x.1 == t.1) = some t :=
      find?_reverse_unique l2 t hnd2 (hp.mem_iff.mp hm)
    rw [hq] at h2
    rw [h2]
  | none =>
    have h2 : l2.reverse.find? (fun t => t.1 == q) = none := by
      rw [List.find?_eq_none] at hf ⊢
      intro x hx
      exact hf x (List.mem_reverse.mpr (hp.mem_iff.mpr (List.mem_reverse.mp hx)))
    rw [h2]

/-- C2: serializing a tag map and parsing the result restores the map; the
map built from a tag list is independent of the order the (unique-keyed)
tags were supplied in; keys are serialized in sorted order; and equal maps
serialize to the identical string. -/
theorem C2_tagmap_roundtrip (l1 l2 : List Tag) :
    parseMapS (serTagMap (tags_to_map (some l1))) = some (tags_to_map (some l1))
    ∧ sortedTags (tags_to_map (some l1))
    ∧ (l1.Perm l2 → (l1.map Prod.fst).Nodup →
        tags_to_map (some l1) = tags_to_map (some l2))
    ∧ ((∀ q, lookupKey (tags_to_map (some l1)) q = lookupKey (tags_to_map (some l2)) q) →
        serTagMap (tags_to_map (some l1)) = serTagMap (tags_to_map (some l2))) := by
  refine ⟨parseMapS_serTagMap _, sortedTags_tags_to_map _, tags_to_map_perm l1 l2, ?_⟩
  intro hq
  rw [sortedTags_eq_of_lookup _ _ (sortedTags_tags_to_map _) (sortedTags_tags_to_map _) hq]

/-- Witness for C2 at a concrete two-tag permutation. -/
theorem C2_tagmap_roundtrip_witness :
    tags_to_map (some [(("b" : String), some "2"), ("a", some "1")]) =
      tags_to_map (some [(("a" : String), some "1"), ("b", some "2")])
    ∧ parseMapS (serTagMap (tags_to_map (some [(("b" : String), some "2"), ("a", some "1")]))) =
      some (tags_to_map (some [(("b" : String), some "2"), ("a", some "1")]))
    ∧ serTagMap (tags_to_map (some [(("b" : String), some "2"), ("a", some "1")])) =
      serTagMap (tags_to_map (some [(("a" : String), some "1"), ("b", some "2")])) := by
  have h := C2_tagmap_roundtrip [("b", some "2"), ("a", some "1")]
    [("a", some "1"), ("b", some "2")]
  have hperm : ([(("b" : String), some "2"), ("a", some "1")] : List Tag).Perm
      [("a", some "1"), ("b", some "2")] := List.Perm.swap _ _ _
  refine ⟨h.2.2.1 hperm (by decide), h.1, h.2.2.2 ?_⟩
  intro q
  rw [h.2.2.1 hperm (by decide)]

end PurpleGhost
